import Mathlib

/-!
# Verification of the springd concurrent request engine

Shallow embedding of the dispatcher state machines, the worker loop, and the
statistics pipeline of the springd HTTP benchmark tool
(`src/springd/src/dispatcher.rs`, `src/springd/src/task.rs`,
`src/springd/src/statistics.rs`), with proofs of the specified properties.

Modelling conventions:
* `Instant` and `Duration` are nanosecond counts (`Nat`); `Instant - Instant`
  is truncated subtraction, matching Rust's saturating `Instant` arithmetic
  under a monotone clock.
* `f64` arithmetic on integer-valued inputs is modelled over `ℚ`; an IEEE
  division whose divisor is zero is marked by `Option.none`.
* Atomic loads/stores are individual transitions of an explicit step relation
  where interleaving matters (the count dispatcher), and plain record
  operations where a single call is specified.
-/

namespace Springd

/-- Model of `Duration::as_secs` on a nanosecond count. -/
def asSecs (nanos : Nat) : Nat := nanos / 1000000000

/-! ## DurationDispatcher (src/springd/src/dispatcher.rs, lines 119-211) -/

/-- State of `DurationDispatcher`: `total` admitted jobs, `start` instant,
`duration` budget, cancellation flag and instant, done flag. -/
structure DurationDispatcher where
  total : Nat
  start : Nat
  duration : Nat
  isCanceled : Bool
  canceledAt : Option Nat
  isDone : Bool
deriving DecidableEq

/-- Constructor `DurationDispatcher::new`: `start` is the construction instant. -/
def DurationDispatcher.new (duration : Nat) (now : Nat) : DurationDispatcher :=
  { total := 0, start := now, duration := duration
    isCanceled := false, canceledAt := none, isDone := false }

/-- Method `DurationDispatcher::try_apply_job`. The limiter wait (if configured)
suspends between the flag check and the deadline check but touches no
dispatcher state; `now` is the instant read at the deadline check. Returns
the admission decision and the updated state. -/
def DurationDispatcher.tryApplyJob (d : DurationDispatcher) (now : Nat) :
    Bool × DurationDispatcher :=
  if d.isDone || d.isCanceled then (false, d)
  else if d.duration ≤ now - d.start then (false, d)
  else (true, { d with total := d.total + 1 })

/-- Method `DurationDispatcher::complete_job`. -/
def DurationDispatcher.completeJob (d : DurationDispatcher) (now : Nat) :
    DurationDispatcher :=
  if d.duration ≤ now - d.start ∧ d.isDone = false then
    { d with isDone := true }
  else d

/-- Method `DurationDispatcher::cancel` (takes `&mut self`, so calls never
interleave). -/
def DurationDispatcher.cancel (d : DurationDispatcher) (now : Nat) :
    DurationDispatcher :=
  if d.isCanceled then d
  else { d with isCanceled := true, canceledAt := some now }

/-- Method `DurationDispatcher::get_process`: whole seconds of run time divided by
whole seconds of the budget, as `f64` (exact here over `ℚ`).  When canceled
but `canceled_at` is `None` the code falls through to the `now`-based branch,
as does the not-canceled case. -/
def DurationDispatcher.getProcess (d : DurationDispatcher) (now : Nat) : ℚ :=
  if d.isDone then 1
  else
    match (if d.isCanceled then d.canceledAt else none) with
    | some canceledAt =>
        (asSecs (canceledAt - d.start) : ℚ) / (asSecs d.duration : ℚ)
    | none =>
        (asSecs (now - d.start) : ℚ) / (asSecs d.duration : ℚ)

/-! ## CountDispatcher cancellation (src/springd/src/dispatcher.rs, 112-116) -/

/-- Sequential view of `CountDispatcher` state (the concurrent admission path
is modelled separately below as a step relation). -/
structure CountDispatcherSeq where
  total : Nat
  applied : Nat
  completed : Nat
  isCanceled : Bool
  isDone : Bool
deriving DecidableEq

/-- Method `CountDispatcher::cancel`. -/
def CountDispatcherSeq.cancel (c : CountDispatcherSeq) : CountDispatcherSeq :=
  if c.isCanceled then c else { c with isCanceled := true }

/-- C3: a `DurationDispatcher` admits a job only when the instant it reads at
its deadline check satisfies `now - start < duration`; with `duration = 0`
the deadline check always fires, so no job is ever admitted. -/
theorem duration_admission_before_deadline (d : DurationDispatcher) (now : Nat) :
    ((d.tryApplyJob now).1 = true → now - d.start < d.duration) ∧
    (d.duration = 0 → (d.tryApplyJob now).1 = false) := by
  constructor
  · intro h
    unfold DurationDispatcher.tryApplyJob at h
    split at h
    · simp at h
    · split at h
      · simp at h
      · omega
  · intro h0
    unfold DurationDispatcher.tryApplyJob
    split
    · rfl
    · rw [if_pos (by omega)]

theorem duration_admission_before_deadline_witness :
    (5 : Nat) - (DurationDispatcher.new 100 0).start
        < (DurationDispatcher.new 100 0).duration ∧
    ((DurationDispatcher.new 0 0).tryApplyJob 7).1 = false :=
  ⟨(duration_admission_before_deadline (DurationDispatcher.new 100 0) 5).1
      (by decide),
   (duration_admission_before_deadline (DurationDispatcher.new 0 0) 7).2 rfl⟩

/-- C4 counterexample: `get_process` does not clamp.  A dispatcher with a
5-second budget, not done and not canceled, queried 100 seconds after start,
reports progress 20, outside [0,1].  (The state is the constructed state with
no intervening `complete_job` observing the deadline, hence reachable.) -/
theorem duration_progress_unclamped_cex :
    1 < (DurationDispatcher.new 5000000000 0).getProcess 100000000000 := by
  norm_num [DurationDispatcher.getProcess, DurationDispatcher.new, asSecs]

/-- C4 amended: `get_process` returns 1.0 when `is_done`; when canceled with
`canceled_at` recorded it returns `(canceled_at − start) / duration` in whole
seconds; otherwise `(now − start) / duration` in whole seconds, with NO
clamping — the result lies in [0,1] only when the elapsed seconds do not
exceed the duration's seconds (and the duration is at least one second). -/
theorem duration_progress_formula (d : DurationDispatcher) (now : Nat)
    (hdur : 0 < asSecs d.duration) :
    (d.isDone = true → d.getProcess now = 1) ∧
    (d.isDone = false → d.isCanceled = false →
      asSecs (now - d.start) ≤ asSecs d.duration →
      0 ≤ d.getProcess now ∧ d.getProcess now ≤ 1) ∧
    (d.isDone = false → ∀ t, d.isCanceled = true → d.canceledAt = some t →
      asSecs (t - d.start) ≤ asSecs d.duration →
      0 ≤ d.getProcess now ∧ d.getProcess now ≤ 1) := by
  have hdQ : (0 : ℚ) < (asSecs d.duration : ℚ) := by exact_mod_cast hdur
  refine ⟨fun hdone => by simp [DurationDispatcher.getProcess, hdone], ?_, ?_⟩
  · intro hdone hcan hle
    simp only [DurationDispatcher.getProcess, hdone, hcan, if_false,
      Bool.false_eq_true]
    refine ⟨by positivity, ?_⟩
    rw [div_le_one hdQ]
    exact_mod_cast hle
  · intro hdone t hcan hat hle
    simp only [DurationDispatcher.getProcess, hdone, hcan, hat, if_true,
      Bool.false_eq_true, if_false]
    refine ⟨by positivity, ?_⟩
    rw [div_le_one hdQ]
    exact_mod_cast hle

theorem duration_progress_formula_witness :
    0 ≤ (DurationDispatcher.new 5000000000 0).getProcess 3000000000 ∧
    (DurationDispatcher.new 5000000000 0).getProcess 3000000000 ≤ 1 :=
  (duration_progress_formula (DurationDispatcher.new 5000000000 0)
    3000000000 (by decide)).2.1 rfl rfl (by decide)

/-- C10: `cancel()` is idempotent.  On `DurationDispatcher` the first call
(from a not-canceled state) sets `is_canceled` and records
`canceled_at = now`; a second call, at any later instant, leaves the whole
state — in particular `is_canceled` and `canceled_at` — unchanged.  On
`CountDispatcher` a repeated `cancel` leaves the state unchanged. -/
theorem cancel_idempotent (d : DurationDispatcher) (c : CountDispatcherSeq)
    (t₁ t₂ : Nat) :
    (d.isCanceled = false →
      (d.cancel t₁).isCanceled = true ∧ (d.cancel t₁).canceledAt = some t₁) ∧
    (d.cancel t₁).cancel t₂ = d.cancel t₁ ∧
    c.cancel.cancel = c.cancel := by
  refine ⟨fun h => by simp [DurationDispatcher.cancel, h], ?_, ?_⟩
  · by_cases h : d.isCanceled <;>
      simp [DurationDispatcher.cancel, h]
  · by_cases h : c.isCanceled <;>
      simp [CountDispatcherSeq.cancel, h]

theorem cancel_idempotent_witness :
    ((DurationDispatcher.new 9 0).cancel 4).isCanceled = true ∧
    ((DurationDispatcher.new 9 0).cancel 4).canceledAt = some 4 :=
  (cancel_idempotent (DurationDispatcher.new 9 0)
    { total := 1, applied := 0, completed := 0
      isCanceled := false, isDone := false } 4 6).1 rfl

/-! ## CountDispatcher under concurrency
(src/springd/src/dispatcher.rs, lines 79-116, driven by the worker loop of
src/springd/src/task.rs, lines 77-94)

Each atomic operation of `try_apply_job` / `complete_job` is one transition;
between transitions any other worker (or an external `cancel`) may run.  The
HTTP request, the outcome send, and the optional limiter wait touch no
dispatcher state, so they are suspension points only.  The ghost field
`admitted` counts exactly the transitions on which `try_apply_job` returns
`true`. -/

/-- Program counter of one worker, restricted to its dispatcher
interactions. -/
inductive WStatus
  /-- at the top of the worker loop, about to call `try_apply_job` -/
  | loopTop
  /-- passed the `is_done || is_canceled` load, about to load `applied` -/
  | checking
  /-- observed `applied < total`, about to `fetch_add(applied, 1)` -/
  | applying
  /-- admitted; will eventually call `complete_job`'s `fetch_add` -/
  | working
  /-- incremented `completed`, about to run the done check-and-set -/
  | completing
  /-- returned `false` from `try_apply_job`; the loop has exited -/
  | exited
deriving DecidableEq

/-- Global state: `CountDispatcher` fields, the ghost admission counter, and
the worker pool. -/
structure CRun where
  total : Nat
  applied : Nat
  completed : Nat
  isCanceled : Bool
  isDone : Bool
  admitted : Nat
  workers : List WStatus
deriving DecidableEq

/-- Initial state: a fresh `CountDispatcher::new(N)` and `C` workers at the
top of their loops. -/
def CRun.init (N C : Nat) : CRun :=
  { total := N, applied := 0, completed := 0, isCanceled := false
    isDone := false, admitted := 0, workers := List.replicate C .loopTop }

/-- A scheduling action: run one atomic step of worker `i`, or invoke
`cancel()` externally. -/
inductive CAct
  | cancel
  | work (i : Nat)
deriving DecidableEq

/-- One atomic step of a worker whose program counter is `st`, as translated
from `CountDispatcher::try_apply_job` / `complete_job` and the worker loop.
`none` means the worker has exited and cannot step. -/
def wstep (s : CRun) (st : WStatus) : Option (CRun × WStatus) :=
  match st with
  | .loopTop =>
      some (if s.isDone || s.isCanceled then (s, .exited) else (s, .checking))
  | .checking =>
      some (if s.applied < s.total then (s, .applying) else (s, .exited))
  | .applying =>
      -- `let previous = applied.fetch_add(1); if previous >= total { false }`
      some (if s.total ≤ s.applied then
              ({ s with applied := s.applied + 1 }, .exited)
            else
              ({ s with applied := s.applied + 1,
                        admitted := s.admitted + 1 }, .working))
  | .working =>
      -- `completed.fetch_add(1)`
      some ({ s with completed := s.completed + 1 }, .completing)
  | .completing =>
      -- `if completed >= total && !is_done { is_done = true }`
      some (if s.total ≤ s.completed ∧ s.isDone = false then
              ({ s with isDone := true }, .loopTop)
            else (s, .loopTop))
  | .exited => none

/-- Execute one scheduling action. -/
def cstep (s : CRun) : CAct → Option CRun
  | .cancel => some (if s.isCanceled then s else { s with isCanceled := true })
  | .work i =>
      match s.workers.get? i with
      | none => none
      | some st =>
          match wstep s st with
          | none => none
          | some (s', st') => some { s' with workers := s.workers.set i st' }

/-- Execute a whole schedule. -/
def crun (s : CRun) : List CAct → Option CRun
  | [] => some s
  | a :: rest =>
      match cstep s a with
      | none => none
      | some s' => crun s' rest

/-- Number of workers currently holding an admitted, uncompleted job. -/
def countW : List WStatus → Nat
  | [] => 0
  | st :: rest => (if st = WStatus.working then 1 else 0) + countW rest

theorem countW_set (l : List WStatus) (i : Nat) (b st : WStatus)
    (h : l.get? i = some b) :
    countW (l.set i st) + (if b = WStatus.working then 1 else 0)
      = countW l + (if st = WStatus.working then 1 else 0) := by
  induction l generalizing i with
  | nil => simp at h
  | cons hd tl ih =>
      cases i with
      | zero =>
          simp only [List.get?] at h
          cases h
          simp [countW, List.set]
          omega
      | succ j =>
          simp only [List.get?] at h
          simp only [List.set, countW]
          have := ih j h
          omega

/-- The inductive invariant of the count-dispatcher system. -/
def CInv (N C : Nat) (s : CRun) : Prop :=
  s.total = N ∧
  s.workers.length = C ∧
  s.admitted = min s.applied N ∧
  s.completed + countW s.workers ≤ s.admitted ∧
  (s.isDone = true → N ≤ s.completed) ∧
  (s.isCanceled = false → WStatus.exited ∈ s.workers → s.admitted = N)

theorem cinv_init (N C : Nat) : CInv N C (CRun.init N C) := by
  refine ⟨rfl, List.length_replicate .., by simp [CRun.init], ?_, ?_, ?_⟩
  · have : countW (List.replicate C WStatus.loopTop) = 0 := by
      induction C with
      | zero => rfl
      | succ n ih => simpa [List.replicate, countW] using ih
    simp [CRun.init, this]
  · intro h; simp [CRun.init] at h
  · intro _ hmem
    exact absurd (List.eq_of_mem_replicate hmem) (by decide)

theorem cinv_step {N C : Nat} {s s' : CRun} {a : CAct}
    (hinv : CInv N C s) (hstep : cstep s a = some s') : CInv N C s' := by
  obtain ⟨htot, hlen, hadm, hcomp, hdone, hexit⟩ := hinv
  cases a with
  | cancel =>
      simp only [cstep] at hstep
      by_cases hc : s.isCanceled
      · rw [if_pos hc] at hstep
        cases hstep
        exact ⟨htot, hlen, hadm, hcomp, hdone, hexit⟩
      · rw [if_neg hc] at hstep
        cases hstep
        exact ⟨htot, hlen, hadm, hcomp, hdone, fun h => by simp at h⟩
  | work i =>
      simp only [cstep] at hstep
      cases hget : s.workers.get? i with
      | none => rw [hget] at hstep; cases hstep
      | some st =>
          rw [hget] at hstep
          have hmem_of_set :
              ∀ (x st' : WStatus), x ∈ s.workers.set i st' →
                x = st' ∨ x ∈ s.workers := by
            intro x st' hx
            rcases List.mem_or_eq_of_mem_set hx with h | h
            · exact Or.inr h
            · exact Or.inl h
          cases st with
          | loopTop =>
              simp only [wstep] at hstep
              by_cases hflag : s.isDone || s.isCanceled
              · rw [if_pos hflag] at hstep
                cases hstep
                have hcw := countW_set s.workers i .loopTop .exited hget
                simp at hcw
                refine ⟨htot, by simpa using hlen, hadm, by dsimp only; omega,
                  hdone, ?_⟩
                intro hcan _
                dsimp only at hcan ⊢
                rcases Bool.or_eq_true_iff.mp hflag with hd | hc
                · have h1 := hdone hd
                  omega
                · rw [hcan] at hc; cases hc
              · rw [if_neg hflag] at hstep
                cases hstep
                have hcw := countW_set s.workers i .loopTop .checking hget
                simp at hcw
                refine ⟨htot, by simpa using hlen, hadm, by dsimp only; omega,
                  hdone, ?_⟩
                intro hcan hmem
                dsimp only at hcan hmem ⊢
                rcases hmem_of_set _ _ hmem with h | h
                · cases h
                · exact hexit hcan h
          | checking =>
              simp only [wstep] at hstep
              by_cases hlt : s.applied < s.total
              · rw [if_pos hlt] at hstep
                cases hstep
                have hcw := countW_set s.workers i .checking .applying hget
                simp at hcw
                refine ⟨htot, by simpa using hlen, hadm, by dsimp only; omega,
                  hdone, ?_⟩
                intro hcan hmem
                dsimp only at hcan hmem ⊢
                rcases hmem_of_set _ _ hmem with h | h
                · cases h
                · exact hexit hcan h
              · rw [if_neg hlt] at hstep
                cases hstep
                have hcw := countW_set s.workers i .checking .exited hget
                simp at hcw
                refine ⟨htot, by simpa using hlen, hadm, by dsimp only; omega,
                  hdone, ?_⟩
                intro _ _
                dsimp only
                omega
          | applying =>
              simp only [wstep] at hstep
              by_cases hge : s.total ≤ s.applied
              · rw [if_pos hge] at hstep
                cases hstep
                have hcw := countW_set s.workers i .applying .exited hget
                simp at hcw
                refine ⟨htot, by simpa using hlen, by dsimp only; omega,
                  by dsimp only; omega, by dsimp only; exact hdone, ?_⟩
                intro _ _
                dsimp only
                omega
              · rw [if_neg hge] at hstep
                cases hstep
                have hcw := countW_set s.workers i .applying .working hget
                simp at hcw
                refine ⟨htot, by simpa using hlen, by dsimp only; omega,
                  by dsimp only; omega, by dsimp only; exact hdone, ?_⟩
                intro hcan hmem
                dsimp only at hcan hmem ⊢
                rcases hmem_of_set _ _ hmem with h | h
                · cases h
                · have := hexit hcan h
                  omega
          | working =>
              simp only [wstep] at hstep
              cases hstep
              have hcw := countW_set s.workers i .working .completing hget
              simp at hcw
              refine ⟨htot, by simpa using hlen, hadm, by dsimp only; omega,
                ?_, ?_⟩
              · intro h
                dsimp only at h ⊢
                have := hdone h
                omega
              · intro hcan hmem
                dsimp only at hcan hmem ⊢
                rcases hmem_of_set _ _ hmem with h | h
                · cases h
                · exact hexit hcan h
          | completing =>
              simp only [wstep] at hstep
              by_cases hcond : s.total ≤ s.completed ∧ s.isDone = false
              · rw [if_pos hcond] at hstep
                cases hstep
                have hcw := countW_set s.workers i .completing .loopTop hget
                simp at hcw
                refine ⟨htot, by simpa using hlen, hadm, by dsimp only; omega,
                  by dsimp only; omega, ?_⟩
                intro hcan hmem
                dsimp only at hcan hmem ⊢
                rcases hmem_of_set _ _ hmem with h | h
                · cases h
                · exact hexit hcan h
              · rw [if_neg hcond] at hstep
                cases hstep
                have hcw := countW_set s.workers i .completing .loopTop hget
                simp at hcw
                refine ⟨htot, by simpa using hlen, hadm, by dsimp only; omega,
                  hdone, ?_⟩
                intro hcan hmem
                dsimp only at hcan hmem ⊢
                rcases hmem_of_set _ _ hmem with h | h
                · cases h
                · exact hexit hcan h
          | exited => simp only [wstep] at hstep; cases hstep

theorem crun_inv {N C : Nat} {s s' : CRun} {acts : List CAct}
    (hinv : CInv N C s) (hrun : crun s acts = some s') : CInv N C s' := by
  induction acts generalizing s with
  | nil => simp only [crun] at hrun; cases hrun; exact hinv
  | cons a rest ih =>
      simp only [crun] at hrun
      cases hstep : cstep s a with
      | none => rw [hstep] at hrun; cases hrun
      | some s₁ =>
          rw [hstep] at hrun
          exact ih (cinv_step hinv hstep) hrun

/-- Flag `is_canceled` is set by `cancel` actions only, and never reset. -/
theorem crun_no_cancel {s s' : CRun} {acts : List CAct}
    (hno : CAct.cancel ∉ acts) (hc : s.isCanceled = false)
    (hrun : crun s acts = some s') : s'.isCanceled = false := by
  induction acts generalizing s with
  | nil => simp only [crun] at hrun; cases hrun; exact hc
  | cons a rest ih =>
      simp only [crun] at hrun
      cases hstep : cstep s a with
      | none => rw [hstep] at hrun; cases hrun
      | some s₁ =>
          rw [hstep] at hrun
          have hna : a ≠ CAct.cancel := fun h => hno (h ▸ List.mem_cons_self a rest)
          have hc₁ : s₁.isCanceled = false := by
            cases a with
            | cancel => exact absurd rfl hna
            | work i =>
                simp only [cstep] at hstep
                cases hget : s.workers.get? i with
                | none => rw [hget] at hstep; cases hstep
                | some st =>
                    rw [hget] at hstep
                    cases st <;> simp only [wstep] at hstep <;>
                      [skip; skip; skip; skip; skip; cases hstep]
                    all_goals
                      first
                      | (split at hstep <;> (cases hstep; simpa using hc))
                      | (cases hstep; simpa using hc)
          exact ih (by intro h; exact hno (List.mem_cons_of_mem a h)) hc₁ hrun

/-- C1: for `CountDispatcher::new(N)` driven by any number of workers under
any interleaving (schedule `acts`), the ghost counter `admitted` — which
counts exactly the `try_apply_job` transitions returning `true` — never
exceeds `N`; and if `cancel()` never occurs in the schedule and the run ends
with every one of the `C ≥ 1` workers having been refused (`exited`), then
exactly `N` jobs were admitted. -/
theorem count_dispatcher_admissions (N C : Nat) (acts : List CAct) (s : CRun)
    (hrun : crun (CRun.init N C) acts = some s) :
    s.admitted ≤ N ∧
    (CAct.cancel ∉ acts → 0 < C →
      (∀ w ∈ s.workers, w = WStatus.exited) → s.admitted = N) := by
  have hinv := crun_inv (cinv_init N C) hrun
  obtain ⟨htot, hlen, hadm, hcomp, hdone, hexit⟩ := hinv
  constructor
  · omega
  · intro hno hC hall
    have hcan : s.isCanceled = false :=
      crun_no_cancel hno (by simp [CRun.init]) hrun
    have hne : s.workers ≠ [] := by
      intro h
      rw [h] at hlen
      simp at hlen
      omega
    obtain ⟨w, hw⟩ := List.exists_mem_of_ne_nil s.workers hne
    have : WStatus.exited ∈ s.workers := (hall w hw) ▸ hw
    exact hexit hcan this

/-- Schedule realizing `CountDispatcher(1)` with 100 workers: worker 0 runs a
full iteration (six atomic steps, setting `is_done`), then workers 1..99 each
observe `is_done` and exit. -/
def c1Acts : List CAct :=
  [.work 0, .work 0, .work 0, .work 0, .work 0, .work 0]
    ++ (List.range 99).map (fun i => .work (i + 1))

/-- Final state of the `c1Acts` schedule. -/
def c1Final : CRun :=
  { total := 1, applied := 1, completed := 1, isCanceled := false
    isDone := true, admitted := 1, workers := List.replicate 100 .exited }

set_option maxRecDepth 10000 in
theorem count_dispatcher_admissions_witness :
    c1Final.admitted ≤ 1 ∧ c1Final.admitted = 1 := by
  have h := count_dispatcher_admissions 1 100 c1Acts c1Final (by decide)
  exact ⟨h.1, h.2 (by decide) (by decide) (by decide)⟩

/-! ## Statistics aggregation (src/springd/src/statistics.rs, lines 142-215)

Status codes are naturals; `reqwest::StatusCode` constants compare
numerically (`CONTINUE` = 100, `OK` = 200, `MULTIPLE_CHOICES` = 300,
`BAD_REQUEST` = 400, `INTERNAL_SERVER_ERROR` = 500,
`NETWORK_AUTHENTICATION_REQUIRED` = 511).  A transport error is its display
string (the map key built by `format!("{err}")`) plus an optional attached
status. -/

/-- A `reqwest::Error` as consumed by the aggregator. -/
structure RespError where
  msg : String
  status : Option Nat
deriving DecidableEq

/-- Outcome `statistics::Message`: request/response instants plus the result. -/
structure Message where
  rspAt : Nat
  reqAt : Nat
  response : Except RespError Nat

/-- The aggregator-visible part of `Statistics`. -/
structure Stats where
  rsp1xx : Nat
  rsp2xx : Nat
  rsp3xx : Nat
  rsp4xx : Nat
  rsp5xx : Nat
  rspOthers : Nat
  errors : List (String × Nat)
  totalSuccess : Nat
  total : Nat
  currentCumulative : Nat
  elapsedTime : List Nat
deriving DecidableEq

/-- Constructor `Statistics::new`: all counters zero, maps and vectors empty. -/
def Stats.new : Stats :=
  { rsp1xx := 0, rsp2xx := 0, rsp3xx := 0, rsp4xx := 0, rsp5xx := 0
    rspOthers := 0, errors := [], totalSuccess := 0, total := 0
    currentCumulative := 0, elapsedTime := [] }

/-- Method `Statistics::statistics_rsp_code`: the guarded match over status
ranges, in source order. -/
def statisticsRspCode (s : Stats) (status : Nat) : Stats :=
  if 100 ≤ status ∧ status < 200 then { s with rsp1xx := s.rsp1xx + 1 }
  else if 200 ≤ status ∧ status < 300 then { s with rsp2xx := s.rsp2xx + 1 }
  else if 300 ≤ status ∧ status < 400 then { s with rsp3xx := s.rsp3xx + 1 }
  else if 400 ≤ status ∧ status < 500 then { s with rsp4xx := s.rsp4xx + 1 }
  else if 500 ≤ status ∧ status ≤ 511 then { s with rsp5xx := s.rsp5xx + 1 }
  else { s with rspOthers := s.rspOthers + 1 }

/-- Update `errors.entry(k).and_modify(|c| *c += 1).or_insert(1)` on the error
map, viewed as an association list. -/
def bumpError : List (String × Nat) → String → List (String × Nat)
  | [], k => [(k, 1)]
  | (k', v) :: rest, k =>
      if k' = k then (k', v + 1) :: rest else (k', v) :: bumpError rest k

/-- Method `Statistics::handle_resp_error` (lines 181-191). -/
def handleRespError (s : Stats) (e : RespError) : Stats :=
  let s' := { s with errors := bumpError s.errors e.msg }
  match e.status with
  | some st => statisticsRspCode s' st
  | none => s'

/-- Method `Statistics::handle_message` (lines 194-215). -/
def handleMessage (s : Stats) (m : Message) : Stats :=
  let s₁ := { s with total := s.total + 1 }
  match m.response with
  | .error e => handleRespError s₁ e
  | .ok status =>
      let s₂ := statisticsRspCode s₁ status
      { s₂ with totalSuccess := s₂.totalSuccess + 1
                currentCumulative := s₂.currentCumulative + 1
                elapsedTime := s₂.elapsedTime ++ [m.rspAt - m.reqAt] }

/-- Sum of the per-key counts in the error map. -/
def errorsSum (s : Stats) : Nat := (s.errors.map Prod.snd).sum

theorem bumpError_sum (l : List (String × Nat)) (k : String) :
    ((bumpError l k).map Prod.snd).sum = (l.map Prod.snd).sum + 1 := by
  induction l with
  | nil => simp [bumpError]
  | cons hd tl ih =>
      obtain ⟨k', v⟩ := hd
      by_cases h : k' = k <;> simp [bumpError, h, ih] <;> omega

theorem statisticsRspCode_counters (s : Stats) (c : Nat) :
    (statisticsRspCode s c).total = s.total ∧
    (statisticsRspCode s c).totalSuccess = s.totalSuccess ∧
    (statisticsRspCode s c).errors = s.errors ∧
    (statisticsRspCode s c).elapsedTime = s.elapsedTime := by
  unfold statisticsRspCode
  split
  · exact ⟨rfl, rfl, rfl, rfl⟩
  · split
    · exact ⟨rfl, rfl, rfl, rfl⟩
    · split
      · exact ⟨rfl, rfl, rfl, rfl⟩
      · split
        · exact ⟨rfl, rfl, rfl, rfl⟩
        · split
          · exact ⟨rfl, rfl, rfl, rfl⟩
          · exact ⟨rfl, rfl, rfl, rfl⟩

theorem handleMessage_partition (s : Stats) (m : Message) :
    (handleMessage s m).total = s.total + 1 ∧
    (handleMessage s m).totalSuccess + errorsSum (handleMessage s m)
      = s.totalSuccess + errorsSum s + 1 := by
  obtain ⟨rsp, req, resp⟩ := m
  cases resp with
  | error e =>
      obtain ⟨emsg, est⟩ := e
      cases est with
      | some c =>
          simp only [handleMessage, handleRespError, statisticsRspCode,
            errorsSum, bumpError_sum]
          split_ifs <;> simp [bumpError_sum] <;> omega
      | none =>
          simp [handleMessage, handleRespError, errorsSum, bumpError_sum]
          omega
  | ok c =>
      simp only [handleMessage, statisticsRspCode, errorsSum]
      split_ifs <;> simp <;> omega

/-- C6: after the aggregator folds any sequence of outcome messages into a
fresh `Statistics`, `total = total_success + Σ errors.values()`; moreover a
single `handle_message` increments `total` by exactly one and increments
`total_success + Σ errors.values()` by exactly one (exactly one of the two
sides absorbs each message). -/
theorem stats_total_partition (msgs : List Message) (s : Stats) (m : Message) :
    ((msgs.foldl handleMessage Stats.new).total
      = (msgs.foldl handleMessage Stats.new).totalSuccess
        + errorsSum (msgs.foldl handleMessage Stats.new)) ∧
    (handleMessage s m).total = s.total + 1 ∧
    (handleMessage s m).totalSuccess + errorsSum (handleMessage s m)
      = s.totalSuccess + errorsSum s + 1 := by
  refine ⟨?_, handleMessage_partition s m⟩
  suffices h : ∀ (l : List Message) (t : Stats),
      t.total = t.totalSuccess + errorsSum t →
      (l.foldl handleMessage t).total
        = (l.foldl handleMessage t).totalSuccess
          + errorsSum (l.foldl handleMessage t) by
    exact h msgs Stats.new (by simp [Stats.new, errorsSum])
  intro l
  induction l with
  | nil => intro t ht; simpa using ht
  | cons hd tl ih =>
      intro t ht
      simp only [List.foldl_cons]
      apply ih
      obtain ⟨h1, h2⟩ := handleMessage_partition t hd
      omega

/-! ## Status-bucket partition (src/springd/src/statistics.rs, 142-179) -/

/-- The six status buckets. -/
inductive Bucket
  | b1xx
  | b2xx
  | b3xx
  | b4xx
  | b5xx
  | other
deriving DecidableEq

/-- The bucket selected by `statistics_rsp_code`'s guarded match, guards
tried in source order. -/
def bucketOf (status : Nat) : Bucket :=
  if 100 ≤ status ∧ status < 200 then .b1xx
  else if 200 ≤ status ∧ status < 300 then .b2xx
  else if 300 ≤ status ∧ status < 400 then .b3xx
  else if 400 ≤ status ∧ status < 500 then .b4xx
  else if 500 ≤ status ∧ status ≤ 511 then .b5xx
  else .other

/-- Read one bucket counter out of `Statistics`. -/
def bucketCount (s : Stats) : Bucket → Nat
  | .b1xx => s.rsp1xx
  | .b2xx => s.rsp2xx
  | .b3xx => s.rsp3xx
  | .b4xx => s.rsp4xx
  | .b5xx => s.rsp5xx
  | .other => s.rspOthers

theorem statisticsRspCode_bucket (s : Stats) (c : Nat) (b : Bucket) :
    bucketCount (statisticsRspCode s c) b
      = bucketCount s b + (if b = bucketOf c then 1 else 0) := by
  unfold statisticsRspCode bucketOf
  split_ifs <;> cases b <;> simp_all [bucketCount]

/-- The net effect of one folded outcome on one bucket counter. -/
def bucketDelta (m : Message) (b : Bucket) : Nat :=
  match m.response with
  | .ok c => if b = bucketOf c then 1 else 0
  | .error e =>
      match e.status with
      | some c => if b = bucketOf c then 1 else 0
      | none => 0

/-- C7: folding one outcome moves each status counter by `bucketDelta`: on a
success with status `c` exactly the counter of `bucketOf c` is incremented
(all others unchanged); on an error it is incremented exactly when the error
carries a status, and no counter moves otherwise.  The bucket choice follows
the source ranges: 100-199 → 1xx, 200-299 → 2xx, 300-399 → 3xx,
400-499 → 4xx, 500-511 → 5xx, anything else → other. -/
theorem status_bucket_partition (s : Stats) (m : Message) (b : Bucket) :
    (bucketCount (handleMessage s m) b = bucketCount s b + bucketDelta m b) ∧
    (∀ c, 100 ≤ c → c < 200 → bucketOf c = .b1xx) ∧
    (∀ c, 200 ≤ c → c < 300 → bucketOf c = .b2xx) ∧
    (∀ c, 300 ≤ c → c < 400 → bucketOf c = .b3xx) ∧
    (∀ c, 400 ≤ c → c < 500 → bucketOf c = .b4xx) ∧
    (∀ c, 500 ≤ c → c ≤ 511 → bucketOf c = .b5xx) ∧
    (∀ c, c < 100 ∨ 511 < c → bucketOf c = .other) := by
  refine ⟨?_, ?_, ?_, ?_, ?_, ?_, ?_⟩
  · obtain ⟨rsp, req, resp⟩ := m
    cases resp with
    | error e =>
        obtain ⟨emsg, est⟩ := e
        cases est with
        | some c =>
            simp only [handleMessage, handleRespError, bucketDelta]
            rw [statisticsRspCode_bucket]
            cases b <;> simp [bucketCount]
        | none =>
            simp only [handleMessage, handleRespError, bucketDelta]
            cases b <;> simp [bucketCount]
    | ok c =>
        simp only [handleMessage, bucketDelta]
        have h := statisticsRspCode_bucket
          { s with total := s.total + 1 } c b
        cases b <;>
          simpa [bucketCount] using h
  · intro c h1 h2; simp [bucketOf, h1, h2]
  · intro c h1 h2
    simp only [bucketOf]
    rw [if_neg (by omega), if_pos (by omega)]
  · intro c h1 h2
    simp only [bucketOf]
    rw [if_neg (by omega), if_neg (by omega), if_pos (by omega)]
  · intro c h1 h2
    simp only [bucketOf]
    rw [if_neg (by omega), if_neg (by omega), if_neg (by omega),
      if_pos (by omega)]
  · intro c h1 h2
    simp only [bucketOf]
    rw [if_neg (by omega), if_neg (by omega), if_neg (by omega),
      if_neg (by omega), if_pos (by omega)]
  · intro c h
    simp only [bucketOf]
    rw [if_neg (by omega), if_neg (by omega), if_neg (by omega),
      if_neg (by omega), if_neg (by omega)]

theorem status_bucket_partition_witness :
    bucketCount
        (handleMessage Stats.new { rspAt := 7, reqAt := 3, response := .ok 204 })
        Bucket.b2xx
      = bucketCount Stats.new Bucket.b2xx
          + bucketDelta { rspAt := 7, reqAt := 3, response := .ok 204 }
              Bucket.b2xx ∧
    bucketOf 150 = Bucket.b1xx ∧ bucketOf 204 = Bucket.b2xx ∧
    bucketOf 301 = Bucket.b3xx ∧ bucketOf 404 = Bucket.b4xx ∧
    bucketOf 511 = Bucket.b5xx ∧ bucketOf 600 = Bucket.other := by
  have h := status_bucket_partition Stats.new
    { rspAt := 7, reqAt := 3, response := .ok 204 } Bucket.b2xx
  exact ⟨h.1, h.2.1 150 (by norm_num) (by norm_num),
    h.2.2.1 204 (by norm_num) (by norm_num),
    h.2.2.2.1 301 (by norm_num) (by norm_num),
    h.2.2.2.2.1 404 (by norm_num) (by norm_num),
    h.2.2.2.2.2.1 511 (by norm_num) (by norm_num),
    h.2.2.2.2.2.2 600 (Or.inr (by norm_num))⟩

/-! ## Latency percentiles (src/springd/src/statistics.rs, lines 319-340)

Durations are nanosecond counts; `Duration / u32` is division at nanosecond
granularity (and panics when the divisor is zero, modelled by
`Option.none`).  The `f32` percentile is modelled exactly over `ℚ`; the
`as usize` cast truncates toward zero and saturates below zero, which is
`Int.toNat ∘ Rat.floor` for the values at hand. -/

/-- Cast `(count as f32 * percent) as usize`. -/
def percentLen (count : Nat) (p : ℚ) : Nat := (⌊(count : ℚ) * p⌋).toNat

/-- The `for percent in percentiles` loop body of `calculate_latencies`:
skip when `percent_len > count`, else push
`(percent, sum(sorted[..percent_len]) / percent_len)` — `none` when the
`Duration / u32` division hits a zero divisor (a panic in the source). -/
def latencyFold (sorted : List Nat) (count : Nat) (acc : List (ℚ × Nat)) :
    List ℚ → Option (List (ℚ × Nat))
  | [] => some acc
  | p :: ps =>
      let n := percentLen count p
      if count < n then latencyFold sorted count acc ps
      else if n = 0 then none
      else latencyFold sorted count (acc ++ [(p, (sorted.take n).sum / n)]) ps

/-- Method `Statistics::calculate_latencies`: early return (leaving `latencies`
empty) when `elapsed_time` is empty, else sort ascending and run the loop. -/
def calculateLatencies (elapsed : List Nat) (ps : List ℚ) :
    Option (List (ℚ × Nat)) :=
  if elapsed = [] then some []
  else latencyFold (elapsed.mergeSort (fun a b => a ≤ b)) elapsed.length [] ps

theorem latencyFold_eq (sorted : List Nat) (count : Nat)
    (acc : List (ℚ × Nat)) (ps : List ℚ)
    (hpos : ∀ p ∈ ps, 1 ≤ percentLen count p) :
    latencyFold sorted count acc ps
      = some (acc ++ ps.filterMap (fun p =>
          if percentLen count p ≤ count then
            some (p, (sorted.take (percentLen count p)).sum
              / percentLen count p)
          else none)) := by
  induction ps generalizing acc with
  | nil => simp [latencyFold]
  | cons p ps ih =>
      have hp : 1 ≤ percentLen count p := hpos p (List.mem_cons_self p ps)
      have hrest : ∀ q ∈ ps, 1 ≤ percentLen count q :=
        fun q hq => hpos q (List.mem_cons_of_mem p hq)
      by_cases hskip : count < percentLen count p
      · rw [latencyFold, if_pos hskip, ih _ hrest]
        simp only [List.filterMap_cons]
        rw [if_neg (by omega)]
      · rw [latencyFold, if_neg hskip, if_neg (by omega), ih _ hrest]
        simp only [List.filterMap_cons]
        rw [if_pos (by omega)]
        simp

/-- C2 counterexample: with one sample and the default percentile 0.5, the
prefix length is `⌊1 · 0.5⌋ = 0`, so `calculate_latencies` does not append
`(0.5, mean)` — it divides the empty prefix's sum by zero and panics
(`none`); the claim's "appends (p, m) for each requested percentile" fails
at this input. -/
theorem percentLen_half_of_one : percentLen 1 (1/2) = 0 := by
  norm_num [percentLen]

theorem percentLen_half_of_three : percentLen 3 (1/2) = 1 := by
  norm_num [percentLen]

theorem percentLen_one_of_three : percentLen 3 1 = 3 := by
  norm_num [percentLen]
  decide

theorem latencies_append_cex :
    calculateLatencies [5] [1/2] = none ∧
    ([5] : List Nat).length = 1 ∧
    percentLen 1 (1/2) = 0 := by
  refine ⟨?_, rfl, percentLen_half_of_one⟩
  have h : percentLen ([5] : List Nat).length (1/2) = 0 := by
    norm_num [percentLen]
  simp only [calculateLatencies, latencyFold]
  rw [if_neg (show ¬([5] : List Nat) = [] by decide), h]
  norm_num

/-- C2 amended: for every non-empty `elapsed_time` and any requested
percentiles whose prefix lengths `⌊count · p⌋` are all at least 1, the
computation succeeds and appends, in request order, `(p, m)` for exactly the
`p` with `⌊count · p⌋ ≤ count`, where `m` is the truncated mean of the first
`⌊count · p⌋` elements of the ascending-sorted samples; percentiles with an
empty prefix instead panic with a division by zero (see the
counterexample). -/
theorem latencies_prefix_mean (elapsed : List Nat) (ps : List ℚ)
    (hne : elapsed ≠ [])
    (hpos : ∀ p ∈ ps, 1 ≤ percentLen elapsed.length p) :
    List.Sorted (· ≤ ·) (elapsed.mergeSort (fun a b => a ≤ b)) ∧
    (elapsed.mergeSort (fun a b => a ≤ b)).Perm elapsed ∧
    calculateLatencies elapsed ps
      = some (ps.filterMap (fun p =>
          if percentLen elapsed.length p ≤ elapsed.length then
            some (p, ((elapsed.mergeSort (fun a b => a ≤ b)).take
              (percentLen elapsed.length p)).sum / percentLen elapsed.length p)
          else none)) := by
  refine ⟨?_, List.mergeSort_perm elapsed _, ?_⟩
  · have hs := @List.sorted_mergeSort Nat (fun a b => decide (a ≤ b))
      (fun a b c hab hbc => by
        simp only [decide_eq_true_eq] at *; omega)
      (fun a b => by
        simp only [Bool.or_eq_true, decide_eq_true_eq]; omega)
      elapsed
    exact hs.imp (fun h => of_decide_eq_true h)
  · rw [calculateLatencies, if_neg hne, latencyFold_eq _ _ _ _ hpos]
    simp

theorem latencies_prefix_mean_witness :
    List.Sorted (· ≤ ·) (([3, 1, 2] : List Nat).mergeSort (fun a b => a ≤ b)) ∧
    (([3, 1, 2] : List Nat).mergeSort (fun a b => a ≤ b)).Perm [3, 1, 2] ∧
    calculateLatencies [3, 1, 2] [1/2, 1]
      = some ([(1/2 : ℚ), 1].filterMap (fun p =>
          if percentLen ([3, 1, 2] : List Nat).length p
              ≤ ([3, 1, 2] : List Nat).length then
            some (p, ((([3, 1, 2] : List Nat).mergeSort (fun a b => a ≤ b)).take
                (percentLen ([3, 1, 2] : List Nat).length p)).sum
              / percentLen ([3, 1, 2] : List Nat).length p)
          else none)) :=
  latencies_prefix_mean [3, 1, 2] [1/2, 1] (by decide)
    (by
      intro p hp
      rcases List.mem_cons.mp hp with rfl | hp2
      · rw [show ([3, 1, 2] : List Nat).length = 3 from rfl,
          percentLen_half_of_three]
      · rcases List.mem_cons.mp hp2 with rfl | hp3
        · rw [show ([3, 1, 2] : List Nat).length = 3 from rfl,
            percentLen_one_of_three]
          omega
        · exact absurd hp3 (List.not_mem_nil p))

/-- C8: a non-empty sample vector and a percentile in (0, 1] whose prefix
length is zero — `elapsed_time = [5]` (count 1) and `p = 0.5` — reach the
`sum / percent_len` division with divisor 0 (a `Duration` division panic,
`none` here): the guard `percent_len > count` does not skip it
(`percentLen ≤ count` holds). -/
theorem latencies_zero_division_panic :
    ([5] : List Nat).length = 1 ∧
    (0 : ℚ) < 1/2 ∧ (1/2 : ℚ) ≤ 1 ∧
    percentLen 1 (1/2) = 0 ∧
    percentLen 1 (1/2) ≤ 1 ∧
    calculateLatencies [5] [1/2] = none := by
  refine ⟨rfl, by norm_num, by norm_num, percentLen_half_of_one,
    by rw [percentLen_half_of_one]; omega, ?_⟩
  have h : percentLen ([5] : List Nat).length (1/2) = 0 := by
    norm_num [percentLen]
  simp only [calculateLatencies, latencyFold]
  rw [if_neg (show ¬([5] : List Nat) = [] by decide), h]
  norm_num

/-! ## Summary on an empty sample vector
(src/springd/src/statistics.rs, lines 245-250, 312-317, 319-323) -/

/-- Model of `elapsed_time.iter().max()`, with 0 for the guarded empty case. -/
def listMax (l : List Nat) : Nat := l.foldr max 0

/-- Method `Statistics::calculate_elapsed_time`: returns
`(avg, max, stdev)` in nanoseconds; on an empty vector it returns early and
the three fields keep their zero defaults. -/
def calculateElapsedTime (elapsed : List Nat) : Nat × Nat × Nat :=
  if elapsed = [] then (0, 0, 0)
  else
    let sorted := elapsed.mergeSort (fun a b => a ≤ b)
    let count := sorted.length
    let mean := sorted.sum / count
    let variance :=
      ((sorted.map (fun x =>
        ((x : Int) - (mean : Int)) * ((x : Int) - (mean : Int)))).sum).toNat
        / count
    (sorted.sum / count, listMax sorted, Nat.sqrt variance)

/-- An `f64` division: `none` marks a division whose divisor is zero (IEEE
yields an infinite or NaN value there; no finite quotient exists). -/
def fdiv (a b : ℚ) : Option ℚ := if b = 0 then none else some (a / b)

/-- Model of `Duration::as_secs_f64` on a nanosecond count. -/
def asSecsQ (nanos : Nat) : ℚ := (nanos : ℚ) / 1000000000

/-- Method `Statistics::calculate_throughput`:
`connections as f64 / avg_req_elapsed_time.as_secs_f64()` — performed
unconditionally, also when the average is zero. -/
def calculateThroughput (connections : Nat) (avgNanos : Nat) : Option ℚ :=
  fdiv (connections : ℚ) (asSecsQ avgNanos)

/-- The summary fields derived from `elapsed_time`. -/
structure SummaryOut where
  avgReqElapsedTime : Nat
  maxReqElapsedTime : Nat
  stdevReqElapsedTime : Nat
  latencies : Option (List (ℚ × Nat))
  throughput : Option ℚ
deriving DecidableEq

/-- The `elapsed_time`-derived part of `Statistics::summary`. -/
def summarize (connections : Nat) (percentiles : List ℚ)
    (elapsed : List Nat) : SummaryOut :=
  let ems := calculateElapsedTime elapsed
  { avgReqElapsedTime := ems.1
    maxReqElapsedTime := ems.2.1
    stdevReqElapsedTime := ems.2.2
    latencies := calculateLatencies elapsed percentiles
    throughput := calculateThroughput connections ems.1 }

/-- C9 counterexample: with `elapsed_time` empty the latency fields do stay
at zero, but `calculate_throughput` still divides by
`avg_req_elapsed_time.as_secs_f64() = 0`: a division by zero does occur in
the summary computation (the `f64` quotient is non-finite, `none` here). -/
theorem summary_empty_division_cex :
    (summarize 125 [1/2, 3/4, 9/10, 99/100] []).throughput = none ∧
    asSecsQ (calculateElapsedTime []).1 = 0 := by
  refine ⟨?_, by norm_num [calculateElapsedTime, asSecsQ]⟩
  simp [summarize, calculateElapsedTime, calculateThroughput, fdiv, asSecsQ]

/-- C9 amended: if `elapsed_time` is empty at summary time, the
latency-derived fields keep their zero defaults (`avg = max = stdev = 0`,
`latencies` stays empty) and no panicking division is reached; the only
division with a zero divisor is the floating-point throughput quotient,
whose divisor `avg.as_secs_f64()` is 0. -/
theorem summary_empty_defaults (connections : Nat) (ps : List ℚ) :
    summarize connections ps []
      = { avgReqElapsedTime := 0, maxReqElapsedTime := 0
          stdevReqElapsedTime := 0, latencies := some []
          throughput := none } := by
  simp [summarize, calculateElapsedTime, calculateLatencies,
    calculateThroughput, fdiv, asSecsQ]

/-! ## Worker loop and the outcome channel (src/springd/src/task.rs, 77-94)

One worker iteration: call `try_apply_job` (exit on `false`), perform the
request, `complete_job`, then `let _ = sender.send(message).await` — the
send result is discarded.  A script entry supplies the environment's answers
for one iteration: the admission result and whether the channel send
succeeds. -/

/-- Observable worker events at the dispatcher/channel boundary. -/
inductive WEvent
  | apply (granted : Bool)
  | send (ok : Bool)
deriving DecidableEq

/-- The worker loop of `Task::worker`, run against a finite observation
script (the script ending cuts the observation, not the loop). -/
def workerTrace : List (Bool × Bool) → List WEvent
  | [] => []
  | (granted, sendOk) :: rest =>
      if granted then .apply true :: .send sendOk :: workerTrace rest
      else [.apply false]

/-- The admission results a trace requested, in order. -/
def admissionResults : List WEvent → List Bool
  | [] => []
  | .apply b :: rest => b :: admissionResults rest
  | .send _ :: rest => admissionResults rest

/-- C5 counterexample: after a failed channel send (first iteration) the
worker does not exit: it requests admission again (`let _ =` discards the
send error), exiting only when admission is refused. -/
theorem worker_send_failure_cex :
    workerTrace [(true, false), (false, true)]
      = [.apply true, .send false, .apply false] ∧
    admissionResults (workerTrace [(true, false), (false, true)])
      = [true, false] := by
  decide

/-- C5 amended: the worker ignores the result of the outcome-channel send
and continues its loop, exiting only when `try_apply_job` returns `false`;
its behaviour — which admissions it requests and how many events it
produces — is identical under any pattern of send failures. -/
theorem worker_ignores_send_result (s₁ s₂ : List (Bool × Bool))
    (h : s₁.map Prod.fst = s₂.map Prod.fst) :
    admissionResults (workerTrace s₁) = admissionResults (workerTrace s₂) ∧
    (workerTrace s₁).length = (workerTrace s₂).length := by
  induction s₁ generalizing s₂ with
  | nil =>
      cases s₂ with
      | nil => exact ⟨rfl, rfl⟩
      | cons hd tl => simp at h
  | cons hd tl ih =>
      cases s₂ with
      | nil => simp at h
      | cons hd₂ tl₂ =>
          obtain ⟨g, so⟩ := hd
          obtain ⟨g₂, so₂⟩ := hd₂
          simp only [List.map_cons, List.cons.injEq] at h
          obtain ⟨hg, ht⟩ := h
          cases hg
          obtain ⟨ih₁, ih₂⟩ := ih tl₂ ht
          by_cases hgr : g <;>
            simp [workerTrace, hgr, admissionResults, ih₁, ih₂]

theorem worker_ignores_send_result_witness :
    admissionResults (workerTrace [(true, false), (false, true)])
      = admissionResults (workerTrace [(true, true), (false, true)]) ∧
    (workerTrace [(true, false), (false, true)]).length
      = (workerTrace [(true, true), (false, true)]).length :=
  worker_ignores_send_result [(true, false), (false, true)]
    [(true, true), (false, true)] (by decide)

end Springd
